import Mathlib

/-!
Verification of the interactive canvas/editor subsystem of the repository:
the text reconstruction from word bounding boxes, the edit-history engine
(commit / undo / redo), the highlight-suppression latch, the zoom
controller and the diacritics display transform, all shallowly embedded
from `src/components/FontShowcase.tsx` (the `ResultDisplay` and
`ZoomableImage` components) and the shared types module
(`src/unnamed/part_000`).  Geometry coordinates are modelled as exact
rationals; decimal literals of the source are written as the equal
fractions (0.7 = 7/10, 1.2 = 6/5, 0.5 = 1/2).
-/

attribute [local semireducible] Rat.add Rat.mul Rat.sub Rat.inv

namespace Spec2Proof

/-- Normalized bounding box, from the types module (`src/unnamed/part_000`):
`{ x, y, width, height }`, coordinates in the `[0,1]` range. -/
structure BoundingBox where
  x : ℚ
  y : ℚ
  width : ℚ
  height : ℚ
deriving DecidableEq

/-- A recognized word, from the types module: `{ text, boundingBox }`. -/
structure Word where
  text : String
  boundingBox : BoundingBox
deriving DecidableEq

/-- Vertical center of a word, `FontShowcase.tsx` lines 251-252:
`word.boundingBox.y + word.boundingBox.height / 2`. -/
def centerY (w : Word) : ℚ :=
  w.boundingBox.y + w.boundingBox.height / 2

/-- Stable ascending sort by `boundingBox.y`, `FontShowcase.tsx` line 245:
`[...result.words].sort((a, b) => a.boundingBox.y - b.boundingBox.y)`
(JavaScript `Array.prototype.sort` is stable; `insertionSort` with a total
preorder is the stable sort). -/
def sortByY (ws : List Word) : List Word :=
  ws.insertionSort (fun a b => a.boundingBox.y ≤ b.boundingBox.y)

/-- Stable descending sort by `boundingBox.x`, `FontShowcase.tsx` line 264:
`line.sort((a, b) => b.boundingBox.x - a.boundingBox.x)`. -/
def sortByXDesc (ws : List Word) : List Word :=
  ws.insertionSort (fun a b => b.boundingBox.x ≤ a.boundingBox.x)

/-- The line-grouping test, `FontShowcase.tsx` line 253:
`Math.abs(wordCenterY - referenceCenterY) < lineReferenceWord.boundingBox.height * 0.7`. -/
def sameLine (ref w : Word) : Prop :=
  |centerY w - centerY ref| < ref.boundingBox.height * (7/10)

instance (ref w : Word) : Decidable (sameLine ref w) := by
  unfold sameLine; infer_instance

/-- Greedy line grouping, `FontShowcase.tsx` lines 246-259: `ref` is the
current line's first word (`currentLine[0]`), `line` the current line so
far; a word joins the line when `sameLine` holds, otherwise it starts a
new line and becomes the new reference. -/
def groupAux (ref : Word) (line : List Word) : List Word → List (List Word)
  | [] => [line]
  | w :: rest =>
    if sameLine ref w then groupAux ref (line ++ [w]) rest
    else line :: groupAux w [w] rest

/-- Line grouping over the y-sorted words, `FontShowcase.tsx` lines 243-260;
an empty word list yields no lines. -/
def groupLines (ws : List Word) : List (List Word) :=
  match sortByY ws with
  | [] => []
  | w :: rest => groupAux w [w] rest

/-- Rendering of one line, `FontShowcase.tsx` lines 263-275: words sorted
descending by x, joined by a single space. -/
def renderLine (line : List Word) : String :=
  String.intercalate " " ((sortByXDesc line).map (fun w => w.text))

/-- The reconstructed buffer (`editorRef.current.innerText` after the
effect at `FontShowcase.tsx` lines 241-281): lines joined by a newline. -/
def reconstruct (ws : List Word) : String :=
  String.intercalate "\n" ((groupLines ws).map renderLine)

/-- The per-result editing session of `ResultDisplay`
(`FontShowcase.tsx` lines 208-216): the history state
`{stack: string[], index: number}` (line 211), the editable buffer
content (`editorRef.current.innerText`), the `hasEditedSinceLoad` ref
(line 214) and the `highlightedWord` state (line 210). -/
structure Session where
  stack : List String
  index : Nat
  buffer : String
  hasEdited : Bool
  highlighted : Option Word
deriving DecidableEq

/-- The snapshot at the cursor, `history.stack[history.index] ?? ''`
(`FontShowcase.tsx` line 337). -/
def currentSnapshot (s : Session) : String :=
  s.stack.getD s.index ""

/-- The debounced snapshot commit, `FontShowcase.tsx` lines 295-307: the
editor's text `text` is compared with the snapshot at the cursor; when
equal the history is returned unchanged, otherwise the stack is truncated
to `[0..index]`, `text` is appended and the cursor moves to the new last
position.  The buffer holds the committed editor content in either case. -/
def commit (s : Session) (text : String) : Session :=
  if s.stack[s.index]? = some text then { s with buffer := text }
  else
    { s with
      stack := s.stack.take (s.index + 1) ++ [text],
      index := (s.stack.take (s.index + 1) ++ [text]).length - 1,
      buffer := text }

/-- `handleUndo`, `FontShowcase.tsx` lines 314-323: no-op unless
`canUndo` (`history.index > 0`, line 311); otherwise the cursor moves
one back and the editor text is restored to the snapshot there. -/
def undo (s : Session) : Session :=
  if 0 < s.index then
    { s with index := s.index - 1, buffer := s.stack.getD (s.index - 1) "" }
  else s

/-- `handleRedo`, `FontShowcase.tsx` lines 325-334: no-op unless
`canRedo` (`history.index < history.stack.length - 1`, line 312);
otherwise the cursor moves one forward and the editor text is restored
to the snapshot there. -/
def redo (s : Session) : Session :=
  if s.index + 1 < s.stack.length then
    { s with index := s.index + 1, buffer := s.stack.getD (s.index + 1) "" }
  else s

/-- The fresh history produced by the reconstruction effect
(`FontShowcase.tsx` lines 281-283): `{stack: [initialText], index: 0}`,
with `hasEditedSinceLoad.current = false`. -/
def freshSession (init : String) : Session :=
  ⟨[init], 0, init, false, none⟩

/-- The input events of one session: a raw `onInput` edit, the firing of
the 500 ms debounce timer with the editor text, hover enter/leave on a
word span, the undo and redo buttons, and the arrival of a new analysis
result (the `useEffect` on `result.words`). -/
inductive Event where
  | rawEdit
  | commitText (t : String)
  | wordEnter (w : Word)
  | wordLeave
  | undoButton
  | redoButton
  | newAnalysis (ws : List Word)
deriving DecidableEq

/-- Whether an event replaces the word set with a new analysis result. -/
def Event.isNewAnalysis : Event → Bool
  | .newAnalysis _ => true
  | _ => false

/-- One step of the session state machine.  `rawEdit` is the start of
`handleInput` (`FontShowcase.tsx` lines 287-291): the first edit latches
`hasEditedSinceLoad` and clears the highlight.  `commitText` is the
debounce callback (lines 295-307).  `wordEnter`/`wordLeave` are
`handleWordEnter`/`handleWordSpanMouseLeave` (lines 231-239), which do
nothing once `hasEditedSinceLoad` is set.  `newAnalysis` is the
reconstruction effect (lines 241-285), which rebuilds the buffer and
history and resets the latch (it does not touch `highlightedWord`). -/
def step (s : Session) : Event → Session
  | .rawEdit =>
    if s.hasEdited then s else { s with hasEdited := true, highlighted := none }
  | .commitText t => commit s t
  | .wordEnter w => if s.hasEdited then s else { s with highlighted := some w }
  | .wordLeave => if s.hasEdited then s else { s with highlighted := none }
  | .undoButton => undo s
  | .redoButton => redo s
  | .newAnalysis ws =>
    { stack := [reconstruct ws], index := 0, buffer := reconstruct ws,
      hasEdited := false, highlighted := s.highlighted }

/-- `handleZoomIn`, `FontShowcase.tsx` line 77:
`onScaleChange(Math.min(scale * 1.2, 5))`. -/
def zoomIn (scale : ℚ) : ℚ :=
  min (scale * (6/5)) 5

/-- `handleZoomOut`, `FontShowcase.tsx` line 78:
`onScaleChange(Math.max(scale / 1.2, 0.5))`. -/
def zoomOut (scale : ℚ) : ℚ :=
  max (scale / (6/5)) (1/2)

/-- Whether a character is removed by the regex of `removeDiacritics`
(`FontShowcase.tsx` line 196): the class U+064B..U+0652 plus U+0640. -/
def isStrippedChar (c : Char) : Bool :=
  (0x64B ≤ c.toNat && c.toNat ≤ 0x652) || c.toNat == 0x640

/-- `removeDiacritics`, `FontShowcase.tsx` lines 195-197: the global
replacement of the character class U+064B..U+0652, U+0640 by the empty
string removes exactly the matching characters. -/
def removeDiacritics (text : String) : String :=
  ⟨text.data.filter (fun c => !isStrippedChar c)⟩

/-- `getTextToProcess`, `FontShowcase.tsx` lines 336-339: the snapshot at
the cursor, passed through `removeDiacritics` when diacritics are hidden. -/
def getTextToProcess (s : Session) (diacriticsVisible : Bool) : String :=
  if diacriticsVisible then currentSnapshot s
  else removeDiacritics (currentSnapshot s)

/-- A word as delivered by the analysis response before any validation:
the JSON is cast, not checked (`geminiService.ts` line 170), so at
runtime `boundingBox` may be absent even though the declared type
requires it. -/
structure RawWord where
  text : String
  boundingBox : Option BoundingBox
deriving DecidableEq

/-- Reads every word's bounding box; `none` as soon as one is absent. -/
def allBoxes : List RawWord → Option (List Word)
  | [] => some []
  | w :: rest =>
    match w.boundingBox, allBoxes rest with
    | some b, some l => some (⟨w.text, b⟩ :: l)
    | _, _ => none

/-- Runtime semantics of the reconstruction effect (`FontShowcase.tsx`
lines 241-285) on unvalidated words: reading a field of an absent
`boundingBox` raises a TypeError, which aborts the effect.  With two or
more words the sort comparator (line 245) and the grouping loop (lines
251-252) read every word's box, so one absent box aborts the whole
reconstruction; with an empty or singleton list no box field is ever
read (the comparator is never called and the loop body never runs) and
the buffer is produced from the texts alone. -/
def reconstructRaw (ws : List RawWord) : Except Unit String :=
  match ws with
  | [] => Except.ok ""
  | [w] => Except.ok w.text
  | _ =>
    match allBoxes ws with
    | some words => Except.ok (reconstruct words)
    | none => Except.error ()

lemma allBoxes_eq_none (ws : List RawWord) :
    allBoxes ws = none ↔ ∃ w ∈ ws, w.boundingBox = none := by
  induction ws with
  | nil => simp [allBoxes]
  | cons a l ih =>
    cases ha : a.boundingBox with
    | none => simp [allBoxes, ha]
    | some b =>
      cases hb : allBoxes l with
      | none =>
        have := ih.mp hb
        simp only [allBoxes, ha, hb]
        simp [this]
      | some L =>
        have hnot : ¬ ∃ w ∈ l, w.boundingBox = none := by
          intro hmem
          rw [← ih] at hmem
          rw [hmem] at hb
          exact Option.noConfusion hb
        simp only [allBoxes, ha, hb]
        simp [ha, hnot]

lemma allBoxes_isSome (ws : List RawWord)
    (h : ∀ w ∈ ws, w.boundingBox.isSome = true) :
    ∃ l, allBoxes ws = some l := by
  induction ws with
  | nil => exact ⟨[], rfl⟩
  | cons a l ih =>
    obtain ⟨b, hb⟩ := Option.isSome_iff_exists.mp (h a (by simp))
    obtain ⟨L, hL⟩ := ih (fun w hw => h w (by simp [hw]))
    refine ⟨⟨a.text, b⟩ :: L, ?_⟩
    simp only [allBoxes, hb, hL]

/-- C1: for the word list [("B", y=1/2, x=1/10), ("A", y=1/2, x=3/10),
("C", y=1/10, x=1/5)], every box of height 1/20 (0.05), reconstruction
produces exactly the buffer "C" + newline + "A B" (top line first,
right-to-left within a line), and a new analysis result carrying these
words installs that buffer as the single initial snapshot. -/
theorem C1_reading_order :
    reconstruct
      [⟨"B", ⟨1/10, 1/2, 1/20, 1/20⟩⟩,
       ⟨"A", ⟨3/10, 1/2, 1/20, 1/20⟩⟩,
       ⟨"C", ⟨1/5, 1/10, 1/20, 1/20⟩⟩] = "C\nA B"
    ∧ (step ⟨[""], 0, "", false, none⟩
        (Event.newAnalysis
          [⟨"B", ⟨1/10, 1/2, 1/20, 1/20⟩⟩,
           ⟨"A", ⟨3/10, 1/2, 1/20, 1/20⟩⟩,
           ⟨"C", ⟨1/5, 1/10, 1/20, 1/20⟩⟩])).stack = ["C\nA B"] := by
  constructor <;> decide

/-- C5: with a positive reference height h, a word whose vertical-center
distance from the line's reference word is exactly h * 7/10 starts a new
line (the comparison at line 253 is strict), while a word at distance
h * 69/100 joins the current line. -/
theorem C5_threshold_strict (ref w : Word) (line rest : List Word)
    (hpos : 0 < ref.boundingBox.height) :
    (|centerY w - centerY ref| = ref.boundingBox.height * (7/10) →
      groupAux ref line (w :: rest) = line :: groupAux w [w] rest)
    ∧ (|centerY w - centerY ref| = ref.boundingBox.height * (69/100) →
      groupAux ref line (w :: rest) = groupAux ref (line ++ [w]) rest) := by
  constructor
  · intro h
    have hns : ¬ sameLine ref w := by
      unfold sameLine
      rw [h]
      exact lt_irrefl _
    simp only [groupAux]
    rw [if_neg hns]
  · intro h
    have hs : sameLine ref w := by
      unfold sameLine
      rw [h]
      exact mul_lt_mul_of_pos_left (by norm_num) hpos
    simp only [groupAux]
    rw [if_pos hs]

/-- C5 witness: a reference of height 1 centered at 1/2, against a word
centered at 6/5 (distance exactly 7/10) and a word centered at 119/100
(distance 69/100). -/
theorem C5_threshold_strict_witness :
    groupAux ⟨"r", ⟨0, 0, 0, 1⟩⟩ [⟨"r", ⟨0, 0, 0, 1⟩⟩] [⟨"v", ⟨0, 6/5, 0, 0⟩⟩]
      = [[⟨"r", ⟨0, 0, 0, 1⟩⟩], [⟨"v", ⟨0, 6/5, 0, 0⟩⟩]]
    ∧ groupAux ⟨"r", ⟨0, 0, 0, 1⟩⟩ [⟨"r", ⟨0, 0, 0, 1⟩⟩] [⟨"w", ⟨0, 119/100, 0, 0⟩⟩]
      = [[⟨"r", ⟨0, 0, 0, 1⟩⟩, ⟨"w", ⟨0, 119/100, 0, 0⟩⟩]] := by
  constructor
  · rw [(C5_threshold_strict ⟨"r", ⟨0, 0, 0, 1⟩⟩ ⟨"v", ⟨0, 6/5, 0, 0⟩⟩
      [⟨"r", ⟨0, 0, 0, 1⟩⟩] [] (by decide)).1 (by decide)]
    rfl
  · rw [(C5_threshold_strict ⟨"r", ⟨0, 0, 0, 1⟩⟩ ⟨"w", ⟨0, 119/100, 0, 0⟩⟩
      [⟨"r", ⟨0, 0, 0, 1⟩⟩] [] (by decide)).2 (by decide)]
    rfl

/-- C6 counterexample: with a zero-height reference word, a word whose
vertical center equals the reference center exactly still starts a new
line (the strict test |0| < 0 fails), so it is NOT placed on the same
line as the claim states. -/
theorem C6_counterexample :
    groupAux ⟨"r", ⟨0, 0, 0, 0⟩⟩ [⟨"r", ⟨0, 0, 0, 0⟩⟩] [⟨"w", ⟨1/2, 0, 0, 0⟩⟩]
      = [[⟨"r", ⟨0, 0, 0, 0⟩⟩], [⟨"w", ⟨1/2, 0, 0, 0⟩⟩]]
    ∧ decide
        (groupAux ⟨"r", ⟨0, 0, 0, 0⟩⟩ [⟨"r", ⟨0, 0, 0, 0⟩⟩] [⟨"w", ⟨1/2, 0, 0, 0⟩⟩]
          = [[⟨"r", ⟨0, 0, 0, 0⟩⟩, ⟨"w", ⟨1/2, 0, 0, 0⟩⟩]]) = false := by
  constructor <;> decide

/-- C6 amended: when the current line's reference word has height exactly
0, every subsequent word starts a new line — including a word whose
vertical center equals the reference center exactly — and a single
zero-height word still forms its own line without any division error
(the center computation height / 2 is total). -/
theorem C6_zero_height (ref w : Word) (line rest : List Word)
    (h0 : ref.boundingBox.height = 0) :
    groupAux ref line (w :: rest) = line :: groupAux w [w] rest
    ∧ groupLines [ref] = [[ref]] := by
  constructor
  · have hns : ¬ sameLine ref w := by
      unfold sameLine
      rw [h0, zero_mul]
      exact not_lt.mpr (abs_nonneg _)
    simp only [groupAux]
    rw [if_neg hns]
  · rfl

/-- C6 amended witness: a zero-height reference and a word sharing its
exact center. -/
theorem C6_zero_height_witness :
    groupAux ⟨"r", ⟨0, 0, 0, 0⟩⟩ [⟨"r", ⟨0, 0, 0, 0⟩⟩] [⟨"s", ⟨1/3, 0, 0, 0⟩⟩]
      = [[⟨"r", ⟨0, 0, 0, 0⟩⟩], [⟨"s", ⟨1/3, 0, 0, 0⟩⟩]]
    ∧ groupLines [⟨"r", ⟨0, 0, 0, 0⟩⟩] = [[⟨"r", ⟨0, 0, 0, 0⟩⟩]] := by
  have h := C6_zero_height ⟨"r", ⟨0, 0, 0, 0⟩⟩ ⟨"s", ⟨1/3, 0, 0, 0⟩⟩
    [⟨"r", ⟨0, 0, 0, 0⟩⟩] [] rfl
  exact ⟨by rw [h.1]; rfl, h.2⟩

/-- C7 counterexample: a two-word list in which the second word lacks its
bounding box makes reconstruction abort with an error — it is not the
claimed defensive degradation into an ok buffer. -/
theorem C7_counterexample :
    reconstructRaw [⟨"a", some ⟨0, 0, 0, 0⟩⟩, ⟨"b", none⟩] = Except.error ()
    ∧ (reconstructRaw [⟨"a", some ⟨0, 0, 0, 0⟩⟩, ⟨"b", none⟩]).isOk = false := by
  constructor <;> rfl

/-- C7 amended: with two or more words, a single word lacking its
bounding box aborts the whole reconstruction with an error (no
degenerate-box substitution happens); when every word carries a box the
reconstruction succeeds. -/
theorem C7_missing_geometry (ws : List RawWord) :
    (2 ≤ ws.length → (∃ w ∈ ws, w.boundingBox = none) → reconstructRaw ws = Except.error ())
    ∧ ((∀ w ∈ ws, w.boundingBox.isSome = true) → ∃ out, reconstructRaw ws = Except.ok out) := by
  constructor
  · intro hlen hmiss
    match ws with
    | [] => simp at hlen
    | [w] => simp at hlen
    | a :: b :: rest =>
      have hnone : allBoxes (a :: b :: rest) = none := by
        rw [allBoxes_eq_none]
        exact hmiss
      simp only [reconstructRaw]
      rw [hnone]
  · intro hall
    match ws with
    | [] => exact ⟨"", rfl⟩
    | [w] => exact ⟨w.text, rfl⟩
    | a :: b :: rest =>
      obtain ⟨l, hl⟩ := allBoxes_isSome (a :: b :: rest) hall
      refine ⟨reconstruct l, ?_⟩
      simp only [reconstructRaw]
      rw [hl]

/-- C7 amended witness: a pair with a missing box errors; a pair with
both boxes succeeds. -/
theorem C7_missing_geometry_witness :
    reconstructRaw [⟨"c", some ⟨0, 0, 0, 0⟩⟩, ⟨"d", none⟩] = Except.error ()
    ∧ ∃ out, reconstructRaw [⟨"c", some ⟨0, 0, 0, 0⟩⟩, ⟨"e", some ⟨0, 1, 0, 0⟩⟩]
        = Except.ok out := by
  constructor
  · exact (C7_missing_geometry [⟨"c", some ⟨0, 0, 0, 0⟩⟩, ⟨"d", none⟩]).1
      (by decide) ⟨⟨"d", none⟩, by decide, rfl⟩
  · exact (C7_missing_geometry [⟨"c", some ⟨0, 0, 0, 0⟩⟩, ⟨"e", some ⟨0, 1, 0, 0⟩⟩]).2
      (by decide)

/-- C8: zoomIn caps the scale at 5 and zoomOut floors it at 1/2; any
number of repeated zoomIn steps from scale 1 stays at most 5, and any
number of repeated zoomOut steps from scale 1 stays at least 1/2. -/
theorem C8_zoom_bounds (s : ℚ) (n : ℕ) :
    zoomIn s = min (s * (6/5)) 5
    ∧ zoomOut s = max (s / (6/5)) (1/2)
    ∧ zoomIn^[n] 1 ≤ 5
    ∧ (1/2 : ℚ) ≤ zoomOut^[n] 1 := by
  refine ⟨rfl, rfl, ?_, ?_⟩
  · cases n with
    | zero => norm_num
    | succ m =>
      rw [Function.iterate_succ_apply']
      exact min_le_right _ _
  · cases n with
    | zero => norm_num
    | succ m =>
      rw [Function.iterate_succ_apply']
      exact le_max_right _ _

/-- C10: the diacritics transform keeps exactly the characters outside
U+064B..U+0652 and different from U+0640 (tatweel), in their original
order; it is idempotent; and with diacritics visible the exported text is
the snapshot at the cursor unchanged. -/
theorem C10_diacritics (s : String) (sess : Session) :
    (removeDiacritics s).data
      = s.data.filter (fun c => !((0x64B ≤ c.toNat && c.toNat ≤ 0x652) || c.toNat == 0x640))
    ∧ (removeDiacritics s).data.Sublist s.data
    ∧ removeDiacritics (removeDiacritics s) = removeDiacritics s
    ∧ getTextToProcess sess true = currentSnapshot sess := by
  refine ⟨rfl, List.filter_sublist _, ?_, rfl⟩
  show (⟨((s.data.filter fun c => !isStrippedChar c).filter fun c => !isStrippedChar c)⟩ : String)
    = ⟨s.data.filter fun c => !isStrippedChar c⟩
  congr 1
  rw [List.filter_filter]
  simp

lemma commit_of_eq (s : Session) (t : String) (h : s.stack[s.index]? = some t) :
    commit s t = { s with buffer := t } := by
  unfold commit
  rw [if_pos h]

lemma commit_of_ne (s : Session) (t : String) (h : ¬ s.stack[s.index]? = some t) :
    commit s t =
      { s with
        stack := s.stack.take (s.index + 1) ++ [t],
        index := (s.stack.take (s.index + 1) ++ [t]).length - 1,
        buffer := t } := by
  unfold commit
  rw [if_neg h]

lemma commit_top (s : Session) (t : String) :
    (commit s t).stack[(commit s t).index]? = some t := by
  by_cases h : s.stack[s.index]? = some t
  · rw [commit_of_eq s t h]
    exact h
  · rw [commit_of_ne s t h]
    show (s.stack.take (s.index + 1) ++ [t])[(s.stack.take (s.index + 1) ++ [t]).length - 1]?
      = some t
    have hlen : (s.stack.take (s.index + 1) ++ [t]).length
        = (s.stack.take (s.index + 1)).length + 1 := by simp
    rw [hlen, Nat.add_sub_cancel]
    exact List.getElem?_concat_length _ _

lemma commit_buffer (s : Session) (t : String) : (commit s t).buffer = t := by
  unfold commit; split <;> rfl

lemma commit_hasEdited (s : Session) (t : String) :
    (commit s t).hasEdited = s.hasEdited := by
  unfold commit; split <;> rfl

lemma commit_highlighted (s : Session) (t : String) :
    (commit s t).highlighted = s.highlighted := by
  unfold commit; split <;> rfl

lemma undo_act (s : Session) (h : 0 < s.index) :
    undo s = { s with index := s.index - 1, buffer := s.stack.getD (s.index - 1) "" } := by
  unfold undo; rw [if_pos h]

lemma undo_noop (s : Session) (h : ¬ 0 < s.index) : undo s = s := by
  unfold undo; rw [if_neg h]

lemma undo_stack (s : Session) : (undo s).stack = s.stack := by
  unfold undo; split <;> rfl

lemma undo_index (s : Session) : (undo s).index = s.index - 1 := by
  unfold undo; split
  · rfl
  · omega

lemma undo_hasEdited (s : Session) : (undo s).hasEdited = s.hasEdited := by
  unfold undo; split <;> rfl

lemma undo_highlighted (s : Session) : (undo s).highlighted = s.highlighted := by
  unfold undo; split <;> rfl

lemma redo_act (s : Session) (h : s.index + 1 < s.stack.length) :
    redo s = { s with index := s.index + 1, buffer := s.stack.getD (s.index + 1) "" } := by
  unfold redo; rw [if_pos h]

lemma redo_noop (s : Session) (h : ¬ s.index + 1 < s.stack.length) : redo s = s := by
  unfold redo; rw [if_neg h]

lemma redo_stack (s : Session) : (redo s).stack = s.stack := by
  unfold redo; split <;> rfl

lemma redo_hasEdited (s : Session) : (redo s).hasEdited = s.hasEdited := by
  unfold redo; split <;> rfl

lemma redo_highlighted (s : Session) : (redo s).highlighted = s.highlighted := by
  unfold redo; split <;> rfl

/-- C2: committing the snapshot already at the cursor leaves the stack
and cursor unchanged; committing a different text truncates the stack to
positions 0..cursor, appends the text and moves the cursor to the new
last index; consequently a second commit of the same text never changes
the stack length. -/
theorem C2_commit_semantics (s : Session) (t : String) :
    (s.stack[s.index]? = some t →
      (commit s t).stack = s.stack ∧ (commit s t).index = s.index)
    ∧ (¬ s.stack[s.index]? = some t →
      (commit s t).stack = s.stack.take (s.index + 1) ++ [t]
      ∧ (commit s t).index = (s.stack.take (s.index + 1) ++ [t]).length - 1)
    ∧ (commit (commit s t) t).stack.length = (commit s t).stack.length := by
  refine ⟨?_, ?_, ?_⟩
  · intro h
    rw [commit_of_eq s t h]
    exact ⟨rfl, rfl⟩
  · intro h
    rw [commit_of_ne s t h]
    exact ⟨rfl, rfl⟩
  · rw [commit_of_eq (commit s t) t (commit_top s t)]

/-- C2 witness: from the one-snapshot history ["a"], committing "a" is a
no-op, committing "b" appends, and re-committing "b" keeps the length. -/
theorem C2_commit_semantics_witness :
    (commit ⟨["a"], 0, "a", false, none⟩ "a").stack = ["a"]
    ∧ (commit ⟨["a"], 0, "a", false, none⟩ "b").stack = ["a", "b"]
    ∧ (commit (commit ⟨["a"], 0, "a", false, none⟩ "b") "b").stack.length
      = (commit ⟨["a"], 0, "a", false, none⟩ "b").stack.length := by
  refine ⟨?_, ?_, (C2_commit_semantics ⟨["a"], 0, "a", false, none⟩ "b").2.2⟩
  · exact ((C2_commit_semantics ⟨["a"], 0, "a", false, none⟩ "a").1 (by decide)).1
  · exact ((C2_commit_semantics ⟨["a"], 0, "a", false, none⟩ "b").2.1 (by decide)).1

/-- C9: every history operation preserves `0 ≤ cursor < length(stack)`
and keeps the initial snapshot at position 0 (a new analysis installs the
reconstructed text there); undo is a no-op at cursor 0, redo is a no-op
at the last index, and commit's truncation to 0..cursor never removes
position 0. -/
theorem C9_history_invariant (s : Session) (t init : String) (ws : List Word)
    (h1 : s.index < s.stack.length) (h2 : s.stack.head? = some init) :
    ((commit s t).index < (commit s t).stack.length
      ∧ (commit s t).stack.head? = some init)
    ∧ ((undo s).index < (undo s).stack.length ∧ (undo s).stack.head? = some init)
    ∧ ((redo s).index < (redo s).stack.length ∧ (redo s).stack.head? = some init)
    ∧ ((step s (Event.newAnalysis ws)).index
        < (step s (Event.newAnalysis ws)).stack.length
      ∧ (step s (Event.newAnalysis ws)).stack.head? = some (reconstruct ws))
    ∧ (s.index = 0 → undo s = s)
    ∧ (s.index = s.stack.length - 1 → redo s = s) := by
  refine ⟨?_, ?_, ?_, ⟨Nat.zero_lt_one, rfl⟩, ?_, ?_⟩
  · by_cases hc : s.stack[s.index]? = some t
    · rw [commit_of_eq s t hc]
      exact ⟨h1, h2⟩
    · rw [commit_of_ne s t hc]
      constructor
      · show (s.stack.take (s.index + 1) ++ [t]).length - 1
          < (s.stack.take (s.index + 1) ++ [t]).length
        rw [List.length_append]
        simp
      · show (s.stack.take (s.index + 1) ++ [t]).head? = some init
        cases hstack : s.stack with
        | nil => rw [hstack] at h1; simp at h1
        | cons a as =>
          rw [hstack] at h2
          simp only [List.head?_cons, Option.some.injEq] at h2
          rw [List.take_succ_cons]
          simp [h2]
  · refine ⟨?_, ?_⟩
    · rw [undo_stack s, undo_index s]
      omega
    · rw [undo_stack s]
      exact h2
  · by_cases hr : s.index + 1 < s.stack.length
    · rw [redo_act s hr]
      exact ⟨hr, h2⟩
    · rw [redo_noop s hr]
      exact ⟨h1, h2⟩
  · intro h0
    exact undo_noop s (by omega)
  · intro hl
    exact redo_noop s (by omega)

/-- C9 witness: the fresh one-snapshot history ["i"] at cursor 0. -/
theorem C9_history_invariant_witness :
    ((commit ⟨["i"], 0, "i", false, none⟩ "x").index
      < (commit ⟨["i"], 0, "i", false, none⟩ "x").stack.length)
    ∧ undo ⟨["i"], 0, "i", false, none⟩ = ⟨["i"], 0, "i", false, none⟩
    ∧ redo ⟨["i"], 0, "i", false, none⟩ = ⟨["i"], 0, "i", false, none⟩ := by
  have h := C9_history_invariant ⟨["i"], 0, "i", false, none⟩ "x" "i" []
    (by decide) rfl
  exact ⟨h.1.1, h.2.2.2.2.1 rfl, h.2.2.2.2.2 rfl⟩

lemma commit_atTail (s : Session) (t : String) (h : s.index + 1 = s.stack.length) :
    (commit s t).index + 1 = (commit s t).stack.length
    ∧ s.stack.length ≤ (commit s t).stack.length := by
  by_cases hc : s.stack[s.index]? = some t
  · rw [commit_of_eq s t hc]
    exact ⟨h, le_refl _⟩
  · rw [commit_of_ne s t hc]
    have htake : (s.stack.take (s.index + 1)).length = s.stack.length := by
      rw [List.length_take]
      omega
    constructor
    · show ((s.stack.take (s.index + 1) ++ [t]).length - 1) + 1
        = (s.stack.take (s.index + 1) ++ [t]).length
      rw [List.length_append]
      simp
    · show s.stack.length ≤ (s.stack.take (s.index + 1) ++ [t]).length
      rw [List.length_append, htake]
      simp

lemma foldl_commit_tail (ts : List String) :
    ∀ s : Session, s.index + 1 = s.stack.length →
      (ts.foldl commit s).index + 1 = (ts.foldl commit s).stack.length
      ∧ s.stack.length ≤ (ts.foldl commit s).stack.length
      ∧ ∀ h : ts ≠ [],
          (ts.foldl commit s).stack[(ts.foldl commit s).index]? = some (ts.getLast h)
          ∧ (ts.foldl commit s).buffer = ts.getLast h := by
  induction ts with
  | nil =>
    intro s hs
    exact ⟨hs, le_refl _, fun h => absurd rfl h⟩
  | cons a l ih =>
    intro s hs
    have hca := commit_atTail s a hs
    have hl := ih (commit s a) hca.1
    refine ⟨hl.1, le_trans hca.2 hl.2.1, ?_⟩
    intro hne
    cases l with
    | nil => exact ⟨commit_top s a, commit_buffer s a⟩
    | cons b m => exact hl.2.2 (List.cons_ne_nil b m)

lemma undo_iter (k : ℕ) :
    ∀ s : Session, (undo^[k] s).stack = s.stack ∧ (undo^[k] s).index = s.index - k := by
  induction k with
  | zero => intro s; exact ⟨rfl, rfl⟩
  | succ m ih =>
    intro s
    rw [Function.iterate_succ_apply]
    have h := ih (undo s)
    refine ⟨h.1.trans (undo_stack s), ?_⟩
    rw [h.2, undo_index s]
    omega

lemma undo_noop_iter (k : ℕ) :
    ∀ s : Session, s.index = 0 → undo^[k] s = s := by
  induction k with
  | zero => intro s _; rfl
  | succ m ih =>
    intro s h
    rw [Function.iterate_succ_apply, undo_noop s (by omega), ih s h]

lemma redo_noop_iter (k : ℕ) :
    ∀ s : Session, s.stack.length ≤ s.index + 1 → redo^[k] s = s := by
  induction k with
  | zero => intro s _; rfl
  | succ m ih =>
    intro s h
    rw [Function.iterate_succ_apply, redo_noop s (by omega), ih s h]

lemma redo_iter (k : ℕ) :
    ∀ s : Session, s.index + 1 < s.stack.length → s.stack.length ≤ s.index + 1 + k →
      (redo^[k] s).stack = s.stack ∧ (redo^[k] s).index = s.stack.length - 1
      ∧ (redo^[k] s).buffer = s.stack.getD (s.stack.length - 1) "" := by
  induction k with
  | zero =>
    intro s h1 h2
    exact absurd h1 (by omega)
  | succ m ih =>
    intro s h1 h2
    rw [Function.iterate_succ_apply, redo_act s h1]
    by_cases h3 : s.index + 1 + 1 < s.stack.length
    · have hrec := ih { s with index := s.index + 1, buffer := s.stack.getD (s.index + 1) "" }
        (show s.index + 1 + 1 < s.stack.length from h3)
        (show s.stack.length ≤ s.index + 1 + 1 + m from by omega)
      exact ⟨hrec.1, hrec.2.1, hrec.2.2⟩
    · have hlen : s.stack.length = s.index + 2 := by omega
      rw [redo_noop_iter m
        { s with index := s.index + 1, buffer := s.stack.getD (s.index + 1) "" }
        (show s.stack.length ≤ s.index + 1 + 1 from by omega)]
      refine ⟨rfl, ?_, ?_⟩
      · show s.index + 1 = s.stack.length - 1
        omega
      · show s.stack.getD (s.index + 1) "" = s.stack.getD (s.stack.length - 1) ""
        congr 1
        omega

/-- C3: committing any nonempty sequence of pairwise-distinct texts into
a fresh history and then performing N-1 undos followed by N-1 redos
restores the final committed text exactly, both as the editor buffer and
as the snapshot at the cursor. -/
theorem C3_undo_redo_round_trip (init : String) (ts : List String) (hne : ts ≠ [])
    (hdist : ts.Pairwise (fun a b => a ≠ b)) :
    (redo^[ts.length - 1] (undo^[ts.length - 1]
        (ts.foldl commit (freshSession init)))).buffer = ts.getLast hne
    ∧ currentSnapshot (redo^[ts.length - 1] (undo^[ts.length - 1]
        (ts.foldl commit (freshSession init)))) = ts.getLast hne := by
  set sC := ts.foldl commit (freshSession init) with hsC
  have hfold := foldl_commit_tail ts (freshSession init) rfl
  rw [← hsC] at hfold
  obtain ⟨hTail, hMono, hLastF⟩ := hfold
  have hLast := hLastF hne
  have hsnap : currentSnapshot sC = ts.getLast hne := by
    unfold currentSnapshot
    rw [List.getD_eq_getElem?_getD, hLast.1]
    rfl
  by_cases hN : ts.length - 1 = 0
  · rw [hN]
    simp only [Function.iterate_zero_apply]
    exact ⟨hLast.2, hsnap⟩
  · by_cases hL : sC.stack.length ≤ 1
    · have hidx : sC.index = 0 := by omega
      rw [undo_noop_iter _ sC hidx, redo_noop_iter _ sC (by omega)]
      exact ⟨hLast.2, hsnap⟩
    · have hu := undo_iter (ts.length - 1) sC
      have hr := redo_iter (ts.length - 1) (undo^[ts.length - 1] sC)
        (by rw [hu.1, hu.2]; omega)
        (by rw [hu.1, hu.2]; omega)
      have hidx : sC.stack.length - 1 = sC.index := by omega
      constructor
      · rw [hr.2.2, hu.1, hidx, List.getD_eq_getElem?_getD, hLast.1]
        rfl
      · unfold currentSnapshot
        rw [hr.1, hr.2.1, hu.1, hidx, List.getD_eq_getElem?_getD, hLast.1]
        rfl

/-- C3 witness: the two distinct texts "a", "b" over the fresh history
"i": one undo then one redo restores "b". -/
theorem C3_undo_redo_round_trip_witness :
    (redo^[1] (undo^[1] (["a", "b"].foldl commit (freshSession "i")))).buffer = "b"
    ∧ currentSnapshot
        (redo^[1] (undo^[1] (["a", "b"].foldl commit (freshSession "i")))) = "b" := by
  have h := C3_undo_redo_round_trip "i" ["a", "b"] (by decide) (by decide)
  exact h

lemma step_frozen (s : Session) (e : Event) (hE : s.hasEdited = true)
    (hna : e.isNewAnalysis = false) :
    (step s e).highlighted = s.highlighted ∧ (step s e).hasEdited = true := by
  cases e with
  | rawEdit => simp [step, hE]
  | commitText t => exact ⟨commit_highlighted s t, (commit_hasEdited s t).trans hE⟩
  | wordEnter w => simp [step, hE]
  | wordLeave => simp [step, hE]
  | undoButton => exact ⟨undo_highlighted s, (undo_hasEdited s).trans hE⟩
  | redoButton => exact ⟨redo_highlighted s, (redo_hasEdited s).trans hE⟩
  | newAnalysis ws => simp [Event.isNewAnalysis] at hna

lemma foldl_step_frozen (evs : List Event) :
    ∀ s : Session, s.hasEdited = true → (∀ e ∈ evs, e.isNewAnalysis = false) →
      (evs.foldl step s).highlighted = s.highlighted
      ∧ (evs.foldl step s).hasEdited = true := by
  induction evs with
  | nil => intro s hE _; exact ⟨rfl, hE⟩
  | cons e l ih =>
    intro s hE hno
    have h1 := step_frozen s e hE (hno e (by simp))
    have h2 := ih (step s e) h1.2 (fun x hx => hno x (by simp [hx]))
    exact ⟨h2.1.trans h1.1, h2.2⟩

/-- C4: once the session is latched as edited, any sequence of events
that contains no new analysis result — hovers, further edits, commits,
undos and redos — leaves the highlight state unchanged; after a new
analysis result replaces the word set, hovering a word highlights it
again. -/
theorem C4_highlight_suppression_latch (s : Session) (evs : List Event)
    (hE : s.hasEdited = true) (hno : ∀ e ∈ evs, e.isNewAnalysis = false) :
    ((evs.foldl step s).highlighted = s.highlighted
      ∧ (evs.foldl step s).hasEdited = true)
    ∧ ∀ (ws : List Word) (w : Word),
        (step (step s (Event.newAnalysis ws)) (Event.wordEnter w)).highlighted = some w := by
  refine ⟨foldl_step_frozen evs s hE hno, ?_⟩
  intro ws w
  rfl

/-- C4 witness: an edited session ignores a hover, a leave and an undo,
and highlighting works again after an (empty) new analysis result. -/
theorem C4_highlight_suppression_latch_witness :
    (([Event.wordEnter ⟨"x", ⟨0, 0, 0, 0⟩⟩, Event.wordLeave, Event.undoButton].foldl step
        ⟨["i"], 0, "i", true, none⟩).highlighted = none
      ∧ ([Event.wordEnter ⟨"x", ⟨0, 0, 0, 0⟩⟩, Event.wordLeave, Event.undoButton].foldl step
        ⟨["i"], 0, "i", true, none⟩).hasEdited = true)
    ∧ (step (step ⟨["i"], 0, "i", true, none⟩ (Event.newAnalysis []))
        (Event.wordEnter ⟨"x", ⟨0, 0, 0, 0⟩⟩)).highlighted = some ⟨"x", ⟨0, 0, 0, 0⟩⟩ := by
  have h := C4_highlight_suppression_latch ⟨["i"], 0, "i", true, none⟩
    [Event.wordEnter ⟨"x", ⟨0, 0, 0, 0⟩⟩, Event.wordLeave, Event.undoButton]
    rfl (by decide)
  exact ⟨h.1, h.2 [] ⟨"x", ⟨0, 0, 0, 0⟩⟩⟩

end Spec2Proof
